import Mathlib

/-!
Verification development for the dynamics model of nano-genie
(`src/models/dynamics.py`).

The embedding is shallow: tensors of shape `(B, T, P, ...)` become curried
functions `ℕ → ℕ → ℕ → _` whose meaningful domain is the index ranges of the
corresponding tensor; floating-point numbers become rationals `ℚ`;
floating-point library functions that are transcendental (`torch.expm1`,
`torch.softmax`, per-row `cross_entropy`) are abstracted as function
parameters; randomness (uniform draws, Bernoulli draws, `randint` anchors,
categorical sampling) becomes explicit function arguments; the external
ST-transformer backbone together with the latent embedding, positional
encoding and output projection (all opaque collaborators of the decoding
logic) is abstracted as a single scoring function from latent grids to
per-position logits, exactly the way `forward` consumes it.
-/

namespace NanoGenie

/-- Divisor used by the schedule function: `max(T, 1)` floors the divisor at 1
in `x = t / max(T, 1)` (src/models/dynamics.py line 100). -/
def schedDivisor (T : ℕ) : ℕ := max T 1

/-- Embedding of `exp_schedule_torch` (src/models/dynamics.py lines 99-105).
`expm1` abstracts the floating-point `torch.expm1`; numbers are rationals.
The source computes `result` first and then returns exactly `P_total` when
`t == T - 1`; the branch-first form used here agrees pointwise. -/
def exp_schedule_torch (expm1 : ℚ → ℚ) (k : ℚ) (t T P_total : ℕ) : ℚ :=
  let x : ℚ := (t : ℚ) / (schedDivisor T : ℚ)
  if (t : ℤ) = (T : ℤ) - 1 then (P_total : ℚ)
  else (P_total : ℚ) * expm1 (k * x) / expm1 k

/-- Insert a flat position into a list kept in descending confidence order
(stable: on ties the incoming element goes after existing ones). -/
def insertDesc (conf : ℕ → ℚ) (x : ℕ) : List ℕ → List ℕ
  | [] => [x]
  | y :: ys => if conf x < conf y then y :: insertDesc conf x ys else x :: y :: ys

/-- Sort flat positions by confidence, descending (insertion sort). -/
def sortDesc (conf : ℕ → ℚ) : List ℕ → List ℕ
  | [] => []
  | x :: xs => insertDesc conf x (sortDesc conf xs)

/-- Embedding of `torch.topk(values, k, largest=True).indices` composed with
the index mapping back through `masked_flat_idx` (lines 147-149): the `k`
highest-confidence flat positions of `l`, in a deterministic order. -/
def topkDesc (conf : ℕ → ℚ) (l : List ℕ) (k : ℕ) : List ℕ := (sortDesc conf l).take k

/-- First index attaining the maximum of `f` on `[0, K)`; embeds the index
component of `torch.max(probs, dim=-1)`. -/
def argmaxRow (K : ℕ) (f : ℕ → ℚ) : ℕ :=
  (List.range K).foldl (fun best i => if f best < f i then i else best) 0

/-- Abstraction of the learned model state used by `DynamicsModel`:
`K` is `codebook_size = num_bins ** latent_dim`, `mask_token` the learned mask
latent, `score` the composite `latent_embed` + spatial positional encoding +
`transformer` + `output_mlp` pipeline mapping a latent grid and optional
conditioning to per-position logits over the codebook, and `smax` the
floating-point per-row `torch.softmax` abstraction. -/
structure DynamicsModel (α γ : Type) where
  K : ℕ
  mask_token : α
  score : (ℕ → ℕ → ℕ → α) → Option γ → (ℕ → ℕ → ℕ → ℕ → ℚ)
  smax : (ℕ → ℚ) → (ℕ → ℚ)

/-- The training-time Mask State (src/models/dynamics.py lines 41-48):
a raw per-cell Bernoulli draw `u b t p < mask_ratio` with a shared per-batch
ratio `0.5 + r * 0.5`, then for every `(b, p)` the bit at the anchor timestep
`anchor b p` is force-cleared. -/
def trainMask (u : ℕ → ℕ → ℕ → ℚ) (r : ℚ) (anchor : ℕ → ℕ → ℕ) (b t p : ℕ) : Bool :=
  if t = anchor b p then false
  else decide (u b t p < 1/2 + r * (1/2))

/-- Replace masked cells by the mask token (line 52,
`torch.where(mask_positions.unsqueeze(-1), mask_token, discrete_latents)`). -/
def maskLatents {α γ : Type} (M : DynamicsModel α γ) (mp : ℕ → ℕ → ℕ → Bool)
    (lat : ℕ → ℕ → ℕ → α) : ℕ → ℕ → ℕ → α :=
  fun b t p => if mp b t p then M.mask_token else lat b t p

/-- Count of true Mask State entries, as the float sum `mask_flat.sum()`
(line 75). -/
def maskCountQ (B T P : ℕ) (mp : ℕ → ℕ → ℕ → Bool) : ℚ :=
  ∑ b ∈ Finset.range B, ∑ t ∈ Finset.range T, ∑ p ∈ Finset.range P,
    (if mp b t p then (1 : ℚ) else 0)

/-- The loss denominator `mask_flat.sum().clamp_min(1.0)` (line 75). -/
def lossDenom (B T P : ℕ) (mp : ℕ → ℕ → ℕ → Bool) : ℚ :=
  max (maskCountQ B T P mp) 1

/-- The masked cross-entropy loss `(loss_per * mask_flat).sum() / denom`
(lines 70-76); `ce` abstracts the per-row floating-point
`nn.functional.cross_entropy(..., reduction='none')`. -/
def maskedCELoss (B T P : ℕ) (ce : (ℕ → ℚ) → ℕ → ℚ)
    (logits : ℕ → ℕ → ℕ → ℕ → ℚ) (tg : ℕ → ℕ → ℕ → ℕ)
    (mp : ℕ → ℕ → ℕ → Bool) : ℚ :=
  (∑ b ∈ Finset.range B, ∑ t ∈ Finset.range T, ∑ p ∈ Finset.range P,
      ce (fun k => logits b t p k) (tg b t p) * (if mp b t p then (1 : ℚ) else 0))
    / lossDenom B T P mp

/-- Embedding of `DynamicsModel.forward` (src/models/dynamics.py lines 30-78).
`training` is the `training` argument, `selfTraining` the module's
`self.training` flag; `u`, `r`, `anchor` are the random draws consumed by the
masking policy; `ce` abstracts the per-row cross-entropy.  The source raises
`AssertionError` when targets are missing in training mode (after the scoring
pass, whose result is then discarded); the `Except` embedding surfaces the
same observable outcome. -/
def forward {α γ : Type} (M : DynamicsModel α γ) (B T P : ℕ)
    (lat : ℕ → ℕ → ℕ → α) (training selfTraining : Bool)
    (u : ℕ → ℕ → ℕ → ℚ) (r : ℚ) (anchor : ℕ → ℕ → ℕ)
    (cond : Option γ) (targets : Option (ℕ → ℕ → ℕ → ℕ))
    (ce : (ℕ → ℚ) → ℕ → ℚ) :
    Except String ((ℕ → ℕ → ℕ → ℕ → ℚ) × Option (ℕ → ℕ → ℕ → Bool) × Option ℚ) :=
  if training && selfTraining then
    let mp := trainMask u r anchor
    let logits := M.score (maskLatents M mp lat) cond
    match targets with
    | none => Except.error "target indices are needed for training"
    | some tg => Except.ok (logits, some mp, some (maskedCELoss B T P ce logits tg mp))
  else
    Except.ok (M.score lat cond, none, none)

/-- The non-model inputs of one `forward_inference` call: batch size, context
length `T_ctx`, horizon `H`, positions per frame `P`, step budget, the external
`index_to_latents_fn` (applied elementwise, as `indicesToLatents` is), optional
conditioning, schedule steepness, temperature, and the `torch.expm1`
abstraction used by the schedule. -/
structure DecodeCfg (α γ : Type) where
  B : ℕ
  T_ctx : ℕ
  H : ℕ
  P : ℕ
  num_steps : ℕ
  index_to_latents : ℕ → α
  conditioning : Option γ
  schedule_k : ℚ
  temperature : ℚ
  expm1 : ℚ → ℚ

/-- The mutable state of the Iterative Decoding Engine: the working grid
`input_latents` (domain `b < B`, `t < T_ctx + H`, `p < P`) and the Mask State
`mask` over horizon cells (domain `b < B`, `h < H`, `p < P`). -/
@[ext]
structure DecState (α : Type) where
  grid : ℕ → ℕ → ℕ → α
  mask : ℕ → ℕ → ℕ → Bool

/-- Temperature-scaled logits (lines 113-117): divide by the temperature when
`temperature > 0`, leave unscaled otherwise. -/
def scaledLogits {α γ : Type} (M : DynamicsModel α γ) (cfg : DecodeCfg α γ)
    (g : ℕ → ℕ → ℕ → α) : ℕ → ℕ → ℕ → ℕ → ℚ :=
  let logits := M.score g cfg.conditioning
  if 0 < cfg.temperature then fun b t p k => logits b t p k / cfg.temperature
  else logits

/-- Per-position probability rows `torch.softmax(scaled_logits, dim=-1)`
(line 118); the decode loop obtains its logits from `forward` with
`training=False`, which returns the scoring pipeline applied to the unmodified
grid. -/
def stepProbs {α γ : Type} (M : DynamicsModel α γ) (cfg : DecodeCfg α γ)
    (g : ℕ → ℕ → ℕ → α) (b t p : ℕ) : ℕ → ℚ :=
  M.smax (fun k => scaledLogits M cfg g b t p k)

/-- Confidence score: the max probability per position (line 120). -/
def maxProb {α γ : Type} (M : DynamicsModel α γ) (cfg : DecodeCfg α γ)
    (g : ℕ → ℕ → ℕ → α) (b t p : ℕ) : ℚ :=
  stepProbs M cfg g b t p (argmaxRow M.K (stepProbs M cfg g b t p))

/-- The chosen class per position (lines 121-127): a categorical sample when
`temperature > 0` (the `sampler` argument abstracts the RNG draw from the
probability row), the argmax otherwise. -/
def stepPred {α γ : Type} (M : DynamicsModel α γ) (cfg : DecodeCfg α γ)
    (sampler : ℕ → ℕ → ℕ → ℕ → (ℕ → ℚ) → ℕ) (m : ℕ)
    (g : ℕ → ℕ → ℕ → α) : ℕ → ℕ → ℕ → ℕ :=
  if 0 < cfg.temperature then fun b t p => sampler m b t p (stepProbs M cfg g b t p)
  else fun b t p => argmaxRow M.K (stepProbs M cfg g b t p)

/-- Horizon confidence, flattened: `horizon_probs[b].view(-1)[i]` for flat
index `i = h * P + p` over the last `H` timesteps (lines 130, 146). -/
def horizonConf {α γ : Type} (M : DynamicsModel α γ) (cfg : DecodeCfg α γ)
    (g : ℕ → ℕ → ℕ → α) (b i : ℕ) : ℚ :=
  maxProb M cfg g b (cfg.T_ctx + i / cfg.P) (i % cfg.P)

/-- Still-masked flat horizon positions of batch element `b`, in increasing
order: `torch.where(mask[b].view(-1))[0]` (lines 134-136). -/
def maskedIdx {α γ : Type} (cfg : DecodeCfg α γ) (st : DecState α) (b : ℕ) : List ℕ :=
  (List.range (cfg.H * cfg.P)).filter (fun i => st.mask b (i / cfg.P) (i % cfg.P))

/-- Count of still-masked horizon positions for one batch element. -/
def countMasked {α γ : Type} (cfg : DecodeCfg α γ) (st : DecState α) (b : ℕ) : ℕ :=
  (maskedIdx cfg st b).length

/-- Schedule target `int(torch.ceil(exp_schedule_torch(m, num_steps, P_total)))`
(lines 109, 142). -/
def schedTarget {α γ : Type} (cfg : DecodeCfg α γ) (m : ℕ) : ℤ :=
  ⌈exp_schedule_torch cfg.expm1 cfg.schedule_k m cfg.num_steps (cfg.H * cfg.P)⌉

/-- The floor `k_floor = max(P_total // 16, 1)` (line 143). -/
def kFloorOf (P_total : ℕ) : ℕ := max (P_total / 16) 1

/-- `k_b = max(k_floor, min(max(target_unmasked - prev_b, 0), num_masked_b))`
with `prev_b = P_total - num_masked_b`, in Python int arithmetic (lines
140-144); `Int.toNat` realizes the `max(.., 0)` clip. -/
def commitK (P_total : ℕ) (target : ℤ) (numMasked : ℕ) : ℕ :=
  max (kFloorOf P_total) (min (target - ((P_total : ℤ) - (numMasked : ℤ))).toNat numMasked)

/-- Positions selected for commitment this step for batch element `b` (lines
133-151): nothing when none are masked, the top `k_b` by confidence when more
than `k_b` are masked, and all masked positions otherwise. -/
def stepSel {α γ : Type} (M : DynamicsModel α γ) (cfg : DecodeCfg α γ)
    (m : ℕ) (st : DecState α) (b : ℕ) : List ℕ :=
  let mi := maskedIdx cfg st b
  if mi = [] then []
  else
    let kb := commitK (cfg.H * cfg.P) (schedTarget cfg m) mi.length
    if kb < mi.length then topkDesc (horizonConf M cfg st.grid b) mi kb else mi

/-- Does the selected flat-index list touch horizon cell `(h, p)`? -/
def hitCell (P : ℕ) (sel : List ℕ) (h p : ℕ) : Bool :=
  sel.any (fun j => h == j / P && p == j % P)

/-- Does the selected flat-index list touch the absolute-time grid cell
`(t, p)` (writes happen at `t_abs = T_ctx + h`, lines 154-168)? -/
def hitAbs (Tc P : ℕ) (sel : List ℕ) (t p : ℕ) : Bool :=
  sel.any (fun j => t == Tc + j / P && p == j % P)

/-- One decode step `m` (lines 108-169): selected cells receive
`index_to_latents_fn` of the chosen class and their mask bit is cleared; all
other cells are untouched.  The by-unique-timestep grouping of the source only
batches the conversion calls; its net effect on grid and mask is this
positionwise update. -/
def decodeStep {α γ : Type} (M : DynamicsModel α γ) (cfg : DecodeCfg α γ)
    (sampler : ℕ → ℕ → ℕ → ℕ → (ℕ → ℚ) → ℕ) (m : ℕ) (st : DecState α) : DecState α :=
  { grid := fun b t p =>
      if hitAbs cfg.T_ctx cfg.P (stepSel M cfg m st b) t p then
        cfg.index_to_latents (stepPred M cfg sampler m st.grid b t p)
      else st.grid b t p,
    mask := fun b h p =>
      if hitCell cfg.P (stepSel M cfg m st b) h p then false else st.mask b h p }

/-- `mask[:, :, :, 0].any()` over the tensor's index ranges (lines 172, 176). -/
def anyMasked {α γ : Type} (cfg : DecodeCfg α γ) (st : DecState α) : Bool :=
  (List.range cfg.B).any fun b =>
    (List.range cfg.H).any fun h =>
      (List.range cfg.P).any fun p => st.mask b h p

/-- The decode loop `for m in range(num_steps)` with the early exit
`if not mask.any(): break` taken after each step (lines 108-173). -/
def decodeIter {α γ : Type} (M : DynamicsModel α γ) (cfg : DecodeCfg α γ)
    (sampler : ℕ → ℕ → ℕ → ℕ → (ℕ → ℚ) → ℕ) : ℕ → ℕ → DecState α → DecState α
  | 0, _, st => st
  | Nat.succ fuel, m, st =>
    let st2 := decodeStep M cfg sampler m st
    if anyMasked cfg st2 then decodeIter M cfg sampler fuel (m + 1) st2 else st2

/-- The final completion pass (lines 176-198): rescore the grid and commit all
still-masked horizon positions via argmax of the (temperature-scaled)
probabilities. -/
def finalStep {α γ : Type} (M : DynamicsModel α γ) (cfg : DecodeCfg α γ)
    (st : DecState α) : DecState α :=
  { grid := fun b t p =>
      if hitAbs cfg.T_ctx cfg.P (maskedIdx cfg st b) t p then
        cfg.index_to_latents (argmaxRow M.K (stepProbs M cfg st.grid b t p))
      else st.grid b t p,
    mask := fun b h p =>
      if hitCell cfg.P (maskedIdx cfg st b) h p then false else st.mask b h p }

/-- Initial decode state (lines 92-97): the context grid with `H` timesteps of
mask tokens appended, and the Mask State all-true on the horizon. -/
def initState {α γ : Type} (M : DynamicsModel α γ) (cfg : DecodeCfg α γ)
    (ctx : ℕ → ℕ → ℕ → α) : DecState α :=
  { grid := fun b t p => if t < cfg.T_ctx then ctx b t p else M.mask_token,
    mask := fun _ _ _ => true }

/-- Full `forward_inference` run, exposing the final internal state (grid and
Mask State): the scheduled loop followed by the conditional completion pass. -/
def decodeFullState {α γ : Type} (M : DynamicsModel α γ) (cfg : DecodeCfg α γ)
    (sampler : ℕ → ℕ → ℕ → ℕ → (ℕ → ℚ) → ℕ) (ctx : ℕ → ℕ → ℕ → α) : DecState α :=
  let stEnd := decodeIter M cfg sampler cfg.num_steps 0 (initState M cfg ctx)
  if anyMasked cfg stEnd then finalStep M cfg stEnd else stEnd

/-- Embedding of `DynamicsModel.forward_inference` (lines 80-205): the
returned working grid. -/
def forward_inference {α γ : Type} (M : DynamicsModel α γ) (cfg : DecodeCfg α γ)
    (sampler : ℕ → ℕ → ℕ → ℕ → (ℕ → ℚ) → ℕ) (ctx : ℕ → ℕ → ℕ → α) :
    ℕ → ℕ → ℕ → α :=
  (decodeFullState M cfg sampler ctx).grid

/-- A tiny concrete model instance (codebook of size 2, identity softmax
abstraction, logits equal to the class index) used to exercise the embedded
operations on closed inputs. -/
def exModel : DynamicsModel ℕ Unit :=
  { K := 2, mask_token := 99,
    score := fun _ _ => fun _ _ _ k => (k : ℚ),
    smax := fun row => row }

/-- A concrete decode configuration: one batch element, one context step, one
horizon step, one position, one scheduled step, temperature 0. -/
def exCfg : DecodeCfg ℕ Unit :=
  { B := 1, T_ctx := 1, H := 1, P := 1, num_steps := 1,
    index_to_latents := fun i => i, conditioning := none,
    schedule_k := 5, temperature := 0, expm1 := fun x => x }

/-- A concrete sampler (never consulted at temperature 0). -/
def exSampler : ℕ → ℕ → ℕ → ℕ → (ℕ → ℚ) → ℕ := fun _ _ _ _ _ => 0

/-- A concrete context grid holding the latent value 7 everywhere. -/
def exCtx : ℕ → ℕ → ℕ → ℕ := fun _ _ _ => 7

/-! ### Helper lemmas -/

theorem insertDesc_perm (conf : ℕ → ℚ) (x : ℕ) (l : List ℕ) :
    (insertDesc conf x l).Perm (x :: l) := by
  induction l with
  | nil => simp [insertDesc]
  | cons y ys ih =>
    by_cases h : conf x < conf y
    · simp only [insertDesc, if_pos h]
      exact (ih.cons y).trans (List.Perm.swap x y ys)
    · simp [insertDesc, h]

theorem sortDesc_perm (conf : ℕ → ℚ) (l : List ℕ) : (sortDesc conf l).Perm l := by
  induction l with
  | nil => simp [sortDesc]
  | cons x xs ih => exact (insertDesc_perm conf x (sortDesc conf xs)).trans (ih.cons x)

theorem divmod_inj (P i j : ℕ) (h1 : i / P = j / P) (h2 : i % P = j % P) : i = j := by
  calc i = P * (i / P) + i % P := (Nat.div_add_mod i P).symm
    _ = P * (j / P) + j % P := by rw [h1, h2]
    _ = j := Nat.div_add_mod j P

theorem hitCell_divmod (P : ℕ) (sel : List ℕ) (i : ℕ) :
    hitCell P sel (i / P) (i % P) = true ↔ i ∈ sel := by
  simp only [hitCell, List.any_eq_true, Bool.and_eq_true, beq_iff_eq]
  constructor
  · rintro ⟨j, hj, h1, h2⟩
    exact (divmod_inj P i j h1 h2) ▸ hj
  · intro hi
    exact ⟨i, hi, rfl, rfl⟩

theorem hitCell_eq_decide_mem (P : ℕ) (sel : List ℕ) (i : ℕ) :
    hitCell P sel (i / P) (i % P) = decide (i ∈ sel) := by
  by_cases hm : i ∈ sel
  · rw [(hitCell_divmod P sel i).mpr hm, decide_eq_true hm]
  · have hne : hitCell P sel (i / P) (i % P) ≠ true :=
      fun h => hm ((hitCell_divmod P sel i).mp h)
    rw [Bool.eq_false_iff.mpr hne, decide_eq_false hm]

theorem maskedIdx_nodup {α γ : Type} (cfg : DecodeCfg α γ) (st : DecState α) (b : ℕ) :
    (maskedIdx cfg st b).Nodup :=
  (List.nodup_range _).filter _

theorem mem_maskedIdx {α γ : Type} (cfg : DecodeCfg α γ) (st : DecState α) (b i : ℕ) :
    i ∈ maskedIdx cfg st b ↔
      i < cfg.H * cfg.P ∧ st.mask b (i / cfg.P) (i % cfg.P) = true := by
  simp [maskedIdx, List.mem_filter, List.mem_range]

theorem stepSel_spec {α γ : Type} (M : DynamicsModel α γ) (cfg : DecodeCfg α γ)
    (m : ℕ) (st : DecState α) (b : ℕ) :
    stepSel M cfg m st b = maskedIdx cfg st b ∨
      ∃ k, k < (maskedIdx cfg st b).length ∧
        stepSel M cfg m st b
          = (sortDesc (horizonConf M cfg st.grid b) (maskedIdx cfg st b)).take k := by
  unfold stepSel
  by_cases h0 : maskedIdx cfg st b = []
  · left
    simp [h0]
  · simp only [if_neg h0]
    by_cases hk : commitK (cfg.H * cfg.P) (schedTarget cfg m) (maskedIdx cfg st b).length
        < (maskedIdx cfg st b).length
    · right
      exact ⟨_, hk, by simp [hk, topkDesc]⟩
    · left
      simp [hk]

theorem stepSel_subset {α γ : Type} (M : DynamicsModel α γ) (cfg : DecodeCfg α γ)
    (m : ℕ) (st : DecState α) (b : ℕ) :
    stepSel M cfg m st b ⊆ maskedIdx cfg st b := by
  rcases stepSel_spec M cfg m st b with hcase | ⟨k, _, hcase⟩
  · rw [hcase]
    exact fun x hx => hx
  · rw [hcase]
    intro x hx
    exact (sortDesc_perm _ _).subset (List.take_subset _ _ hx)

theorem stepSel_length {α γ : Type} (M : DynamicsModel α γ) (cfg : DecodeCfg α γ)
    (m : ℕ) (st : DecState α) (b : ℕ) :
    (stepSel M cfg m st b).length
      = min (commitK (cfg.H * cfg.P) (schedTarget cfg m) (countMasked cfg st b))
          (countMasked cfg st b) := by
  unfold stepSel countMasked
  by_cases h0 : maskedIdx cfg st b = []
  · simp [h0]
  · simp only [if_neg h0]
    by_cases hk : commitK (cfg.H * cfg.P) (schedTarget cfg m) (maskedIdx cfg st b).length
        < (maskedIdx cfg st b).length
    · rw [if_pos hk]
      have hlen : (sortDesc (horizonConf M cfg st.grid b) (maskedIdx cfg st b)).length
          = (maskedIdx cfg st b).length := (sortDesc_perm _ _).length_eq
      simp only [topkDesc, List.length_take, hlen]
    · rw [if_neg hk]
      omega

theorem decodeStep_mask_eq {α γ : Type} (M : DynamicsModel α γ) (cfg : DecodeCfg α γ)
    (sampler : ℕ → ℕ → ℕ → ℕ → (ℕ → ℚ) → ℕ) (m : ℕ) (st : DecState α) (b h p : ℕ) :
    (decodeStep M cfg sampler m st).mask b h p
      = if hitCell cfg.P (stepSel M cfg m st b) h p then false else st.mask b h p := rfl

theorem decodeStep_grid_eq {α γ : Type} (M : DynamicsModel α γ) (cfg : DecodeCfg α γ)
    (sampler : ℕ → ℕ → ℕ → ℕ → (ℕ → ℚ) → ℕ) (m : ℕ) (st : DecState α) (b t p : ℕ) :
    (decodeStep M cfg sampler m st).grid b t p
      = if hitAbs cfg.T_ctx cfg.P (stepSel M cfg m st b) t p then
          cfg.index_to_latents (stepPred M cfg sampler m st.grid b t p)
        else st.grid b t p := rfl

theorem maskedIdx_step {α γ : Type} (M : DynamicsModel α γ) (cfg : DecodeCfg α γ)
    (sampler : ℕ → ℕ → ℕ → ℕ → (ℕ → ℚ) → ℕ) (m : ℕ) (st : DecState α) (b : ℕ) :
    maskedIdx cfg (decodeStep M cfg sampler m st) b
      = (maskedIdx cfg st b).filter (fun i => !(decide (i ∈ stepSel M cfg m st b))) := by
  unfold maskedIdx
  rw [List.filter_filter]
  apply List.filter_congr
  intro i _
  rw [decodeStep_mask_eq, hitCell_eq_decide_mem]
  by_cases hm : i ∈ stepSel M cfg m st b
  · simp [hm]
  · simp [hm]

theorem countMasked_step {α γ : Type} (M : DynamicsModel α γ) (cfg : DecodeCfg α γ)
    (sampler : ℕ → ℕ → ℕ → ℕ → (ℕ → ℚ) → ℕ) (m : ℕ) (st : DecState α) (b : ℕ) :
    countMasked cfg (decodeStep M cfg sampler m st) b
      = countMasked cfg st b - (stepSel M cfg m st b).length := by
  unfold countMasked
  rw [maskedIdx_step]
  rcases stepSel_spec M cfg m st b with hcase | ⟨k, hk, hcase⟩
  · rw [hcase]
    have hnil : (maskedIdx cfg st b).filter (fun i => !(decide (i ∈ maskedIdx cfg st b))) = [] :=
      List.filter_eq_nil_iff.mpr (fun a ha => by simp [ha])
    rw [hnil]
    simp
  · rw [hcase]
    have hperm : (sortDesc (horizonConf M cfg st.grid b) (maskedIdx cfg st b)).Perm
        (maskedIdx cfg st b) := sortDesc_perm _ _
    set s := sortDesc (horizonConf M cfg st.grid b) (maskedIdx cfg st b) with hs
    have hnodup : s.Nodup := hperm.symm.nodup (maskedIdx_nodup cfg st b)
    have hfperm := (hperm.symm.filter (fun i => !(decide (i ∈ s.take k))))
    rw [hfperm.length_eq]
    have hsplit : s = s.take k ++ s.drop k := (List.take_append_drop k s).symm
    have hdisj : (s.take k).Disjoint (s.drop k) :=
      List.disjoint_take_drop hnodup (le_refl k)
    have htake : (s.take k).filter (fun i => !(decide (i ∈ s.take k))) = [] :=
      List.filter_eq_nil_iff.mpr (fun a ha => by simp [ha])
    have hdrop : (s.drop k).filter (fun i => !(decide (i ∈ s.take k))) = s.drop k :=
      List.filter_eq_self.mpr (fun a ha => by
        have : a ∉ s.take k := fun hmem => hdisj hmem ha
        simp [this])
    calc (s.filter (fun i => !(decide (i ∈ s.take k)))).length
        = ((s.take k ++ s.drop k).filter (fun i => !(decide (i ∈ s.take k)))).length := by
          rw [← hsplit]
      _ = (s.drop k).length := by rw [List.filter_append, htake, hdrop, List.nil_append]
      _ = s.length - k := List.length_drop k s
      _ = (maskedIdx cfg st b).length - (s.take k).length := by
          rw [hperm.length_eq, List.length_take]
          have : k ≤ s.length := le_of_lt (hperm.length_eq ▸ hk)
          omega

theorem hitCell_mask_true {α γ : Type} (M : DynamicsModel α γ) (cfg : DecodeCfg α γ)
    (m : ℕ) (st : DecState α) (b h p : ℕ)
    (hhit : hitCell cfg.P (stepSel M cfg m st b) h p = true) :
    st.mask b h p = true := by
  rcases List.any_eq_true.mp hhit with ⟨j, hj, hcond⟩
  rcases (Bool.and_eq_true _ _).mp hcond with ⟨h1, h2⟩
  rw [beq_iff_eq] at h1 h2
  have hj2 := (mem_maskedIdx cfg st b j).mp (stepSel_subset M cfg m st b hj)
  rw [h1, h2]
  exact hj2.2

theorem hitAbs_shift (Tc P : ℕ) (sel : List ℕ) (h p : ℕ) :
    hitAbs Tc P sel (Tc + h) p = hitCell P sel h p := by
  unfold hitAbs hitCell
  induction sel with
  | nil => rfl
  | cons j js ih =>
    simp only [List.any_cons]
    rw [ih]
    have hbeq : (Tc + h == Tc + j / P) = (h == j / P) := by
      by_cases hq : h = j / P
      · rw [hq]
        simp
      · rw [beq_eq_false_iff_ne.mpr hq,
          beq_eq_false_iff_ne.mpr (fun hEq => hq (Nat.add_left_cancel hEq))]
    rw [hbeq]

theorem hitAbs_ctx_false (Tc P : ℕ) (sel : List ℕ) (t p : ℕ) (ht : t < Tc) :
    hitAbs Tc P sel t p = false := by
  refine List.any_eq_false.mpr ?_
  intro j _
  have h1 : (t == Tc + j / P) = false :=
    beq_eq_false_iff_ne.mpr
      (fun hEq => absurd ht (by rw [hEq]; exact Nat.not_lt.mpr (Nat.le_add_right _ _)))
  simp [h1]

theorem anyMasked_false_of {α γ : Type} (cfg : DecodeCfg α γ) (st : DecState α)
    (hall : ∀ b, b < cfg.B → ∀ h, h < cfg.H → ∀ p, p < cfg.P → st.mask b h p = false) :
    anyMasked cfg st = false := by
  refine List.any_eq_false.mpr ?_
  intro b hb hcontra
  rw [List.mem_range] at hb
  rcases List.any_eq_true.mp hcontra with ⟨h, hhmem, hinner⟩
  rw [List.mem_range] at hhmem
  rcases List.any_eq_true.mp hinner with ⟨p, hpmem, hmask⟩
  rw [List.mem_range] at hpmem
  rw [hall b hb h hhmem p hpmem] at hmask
  exact Bool.false_ne_true hmask

theorem finalStep_mask_false {α γ : Type} (M : DynamicsModel α γ) (cfg : DecodeCfg α γ)
    (st : DecState α) (b h p : ℕ) (hh : h < cfg.H) (hp : p < cfg.P) :
    (finalStep M cfg st).mask b h p = false := by
  show (if hitCell cfg.P (maskedIdx cfg st b) h p then false else st.mask b h p) = false
  by_cases hm : st.mask b h p = true
  · have hP : 0 < cfg.P := Nat.lt_of_le_of_lt (Nat.zero_le p) hp
    have hdiv : (h * cfg.P + p) / cfg.P = h := by
      rw [Nat.mul_comm h cfg.P, Nat.mul_add_div hP, Nat.div_eq_of_lt hp, Nat.add_zero]
    have hmod : (h * cfg.P + p) % cfg.P = p := by
      rw [Nat.mul_comm h cfg.P, Nat.mul_add_mod, Nat.mod_eq_of_lt hp]
    have hlt : h * cfg.P + p < cfg.H * cfg.P := by
      calc h * cfg.P + p < h * cfg.P + cfg.P := Nat.add_lt_add_left hp _
        _ = (h + 1) * cfg.P := by ring
        _ ≤ cfg.H * cfg.P := Nat.mul_le_mul_right cfg.P hh
    have hmem : h * cfg.P + p ∈ maskedIdx cfg st b :=
      (mem_maskedIdx cfg st b _).mpr ⟨hlt, by rw [hdiv, hmod]; exact hm⟩
    have hhit : hitCell cfg.P (maskedIdx cfg st b) h p = true :=
      List.any_eq_true.mpr ⟨h * cfg.P + p, hmem, by rw [hdiv, hmod]; simp⟩
    simp [hhit]
  · by_cases hc : hitCell cfg.P (maskedIdx cfg st b) h p <;>
      simp [hc, Bool.eq_false_iff.mpr hm]

theorem decodeStep_grid_ctx {α γ : Type} (M : DynamicsModel α γ) (cfg : DecodeCfg α γ)
    (sampler : ℕ → ℕ → ℕ → ℕ → (ℕ → ℚ) → ℕ) (m : ℕ) (st : DecState α) (b t p : ℕ)
    (ht : t < cfg.T_ctx) :
    (decodeStep M cfg sampler m st).grid b t p = st.grid b t p := by
  rw [decodeStep_grid_eq, hitAbs_ctx_false _ _ _ _ _ ht]
  simp

theorem decodeIter_grid_ctx {α γ : Type} (M : DynamicsModel α γ) (cfg : DecodeCfg α γ)
    (sampler : ℕ → ℕ → ℕ → ℕ → (ℕ → ℚ) → ℕ) (fuel m : ℕ) (st : DecState α) (b t p : ℕ)
    (ht : t < cfg.T_ctx) :
    (decodeIter M cfg sampler fuel m st).grid b t p = st.grid b t p := by
  induction fuel generalizing m st with
  | zero => rfl
  | succ f ih =>
    simp only [decodeIter]
    by_cases h : anyMasked cfg (decodeStep M cfg sampler m st) = true
    · rw [if_pos h, ih, decodeStep_grid_ctx M cfg sampler m st b t p ht]
    · rw [if_neg h, decodeStep_grid_ctx M cfg sampler m st b t p ht]

theorem finalStep_grid_ctx {α γ : Type} (M : DynamicsModel α γ) (cfg : DecodeCfg α γ)
    (st : DecState α) (b t p : ℕ) (ht : t < cfg.T_ctx) :
    (finalStep M cfg st).grid b t p = st.grid b t p := by
  show (if hitAbs cfg.T_ctx cfg.P (maskedIdx cfg st b) t p then _ else _) = _
  rw [hitAbs_ctx_false _ _ _ _ _ ht]
  simp

theorem stepPred_temp_zero {α γ : Type} (M : DynamicsModel α γ) (cfg : DecodeCfg α γ)
    (s1 s2 : ℕ → ℕ → ℕ → ℕ → (ℕ → ℚ) → ℕ) (m : ℕ) (g : ℕ → ℕ → ℕ → α) :
    stepPred M { cfg with temperature := 0 } s1 m g
      = stepPred M { cfg with temperature := 0 } s2 m g := by
  unfold stepPred
  simp

theorem decodeStep_temp_zero {α γ : Type} (M : DynamicsModel α γ) (cfg : DecodeCfg α γ)
    (s1 s2 : ℕ → ℕ → ℕ → ℕ → (ℕ → ℚ) → ℕ) (m : ℕ) (st : DecState α) :
    decodeStep M { cfg with temperature := 0 } s1 m st
      = decodeStep M { cfg with temperature := 0 } s2 m st := by
  unfold decodeStep
  rw [stepPred_temp_zero M cfg s1 s2 m st.grid]

theorem decodeIter_temp_zero {α γ : Type} (M : DynamicsModel α γ) (cfg : DecodeCfg α γ)
    (s1 s2 : ℕ → ℕ → ℕ → ℕ → (ℕ → ℚ) → ℕ) (fuel m : ℕ) (st : DecState α) :
    decodeIter M { cfg with temperature := 0 } s1 fuel m st
      = decodeIter M { cfg with temperature := 0 } s2 fuel m st := by
  induction fuel generalizing m st with
  | zero => rfl
  | succ f ih =>
    simp only [decodeIter]
    rw [decodeStep_temp_zero M cfg s1 s2 m st]
    by_cases h : anyMasked { cfg with temperature := 0 }
        (decodeStep M { cfg with temperature := 0 } s2 m st) = true
    · rw [if_pos h, if_pos h, ih]
    · rw [if_neg h, if_neg h]

/-! ### Claim theorems -/

/-- C1: for every decode call (any horizon, any step budget, hence in
particular all valid ones with `H ≥ 1` and `num_steps ≥ 1`), when
`forward_inference` returns the Mask State is all-false: no horizon position
remains masked, every horizon cell having been committed either during the
scheduled steps or by the unconditional finalization pass. -/
theorem decode_postcondition_mask_all_false {α γ : Type} (M : DynamicsModel α γ)
    (cfg : DecodeCfg α γ) (sampler : ℕ → ℕ → ℕ → ℕ → (ℕ → ℚ) → ℕ)
    (ctx : ℕ → ℕ → ℕ → α) :
    anyMasked cfg (decodeFullState M cfg sampler ctx) = false := by
  simp only [decodeFullState]
  by_cases hAny : anyMasked cfg
      (decodeIter M cfg sampler cfg.num_steps 0 (initState M cfg ctx)) = true
  · rw [if_pos hAny]
    exact anyMasked_false_of cfg _
      (fun b _ h hh p hp => finalStep_mask_false M cfg _ b h p hh hp)
  · rw [if_neg hAny]
    exact Bool.eq_false_iff.mpr hAny

/-- C2: at every decode step, for each batch element with `numMasked`
still-masked horizon positions and `numResolved = totalMaskable - numMasked`
already resolved, the number of positions committed that step (the length of
the selected list, which is exactly the drop in the per-element masked count)
equals `clamp(n - numResolved, floor = max(totalMaskable/16, 1),
ceiling = numMasked)` with `n = ceil(schedule(m, numSteps, totalMaskable))`;
in particular the number committed never exceeds the remaining masked count. -/
theorem decode_step_commit_clamp {α γ : Type} (M : DynamicsModel α γ)
    (cfg : DecodeCfg α γ) (sampler : ℕ → ℕ → ℕ → ℕ → (ℕ → ℚ) → ℕ)
    (m : ℕ) (st : DecState α) (b : ℕ) :
    ((stepSel M cfg m st b).length : ℤ)
        = min (max (schedTarget cfg m
              - (((cfg.H * cfg.P : ℕ) : ℤ) - (countMasked cfg st b : ℤ)))
            ((kFloorOf (cfg.H * cfg.P) : ℕ) : ℤ))
            ((countMasked cfg st b : ℕ) : ℤ)
      ∧ countMasked cfg (decodeStep M cfg sampler m st) b
          = countMasked cfg st b - (stepSel M cfg m st b).length
      ∧ (stepSel M cfg m st b).length ≤ countMasked cfg st b := by
  refine ⟨?_, countMasked_step M cfg sampler m st b, ?_⟩
  · rw [stepSel_length]
    unfold commitK kFloorOf
    omega
  · rw [stepSel_length]
    exact min_le_right _ _

/-- C4: across decode steps, Mask State entries only ever flip true to false
(`mask' = mask && !hit`), so the per-batch-element count of masked positions is
non-increasing; only still-masked positions are eligible for selection
(`hit && mask = hit`); and the grid is written exactly at the selected cells —
the absolute-time write predicate at `T_ctx + h` coincides with the mask-flip
predicate at `h`, so each horizon cell is written exactly at the step where its
mask bit flips. -/
theorem decode_mask_monotone_write_once {α γ : Type} (M : DynamicsModel α γ)
    (cfg : DecodeCfg α γ) (sampler : ℕ → ℕ → ℕ → ℕ → (ℕ → ℚ) → ℕ)
    (m : ℕ) (st : DecState α) (b h p t : ℕ) :
    (decodeStep M cfg sampler m st).mask b h p
        = (st.mask b h p && !(hitCell cfg.P (stepSel M cfg m st b) h p))
      ∧ (hitCell cfg.P (stepSel M cfg m st b) h p && st.mask b h p)
          = hitCell cfg.P (stepSel M cfg m st b) h p
      ∧ countMasked cfg (decodeStep M cfg sampler m st) b ≤ countMasked cfg st b
      ∧ (decodeStep M cfg sampler m st).grid b t p
          = (if hitAbs cfg.T_ctx cfg.P (stepSel M cfg m st b) t p then
              cfg.index_to_latents (stepPred M cfg sampler m st.grid b t p)
            else st.grid b t p)
      ∧ hitAbs cfg.T_ctx cfg.P (stepSel M cfg m st b) (cfg.T_ctx + h) p
          = hitCell cfg.P (stepSel M cfg m st b) h p := by
  refine ⟨?_, ?_, ?_, rfl, hitAbs_shift _ _ _ _ _⟩
  · rw [decodeStep_mask_eq]
    cases hc : hitCell cfg.P (stepSel M cfg m st b) h p <;> simp [hc]
  · cases hc : hitCell cfg.P (stepSel M cfg m st b) h p
    · simp
    · rw [hitCell_mask_true M cfg m st b h p hc]
      simp
  · rw [countMasked_step]
    exact Nat.sub_le _ _

/-- C6: for every decode call, the context portion of the output grid (the
first `T_ctx` timesteps) is identical to the input context: the decoding
engine writes only at absolute time indices `T_ctx .. T_ctx+H-1` and never
overwrites a context cell. -/
theorem decode_preserves_context {α γ : Type} (M : DynamicsModel α γ)
    (cfg : DecodeCfg α γ) (sampler : ℕ → ℕ → ℕ → ℕ → (ℕ → ℚ) → ℕ)
    (ctx : ℕ → ℕ → ℕ → α) (b t p : ℕ) (ht : t < cfg.T_ctx) :
    forward_inference M cfg sampler ctx b t p = ctx b t p := by
  unfold forward_inference
  simp only [decodeFullState]
  by_cases hAny : anyMasked cfg
      (decodeIter M cfg sampler cfg.num_steps 0 (initState M cfg ctx)) = true
  · rw [if_pos hAny, finalStep_grid_ctx M cfg _ b t p ht,
      decodeIter_grid_ctx M cfg sampler _ _ _ b t p ht]
    simp [initState, ht]
  · rw [if_neg hAny, decodeIter_grid_ctx M cfg sampler _ _ _ b t p ht]
    simp [initState, ht]

/-- C7: the schedule function returns exactly `N` at the final step
`numSteps - 1` for every `N ≥ 0` and `numSteps ≥ 1`, regardless of the
exponential formula's numerical result (the `expm1` abstraction is universally
quantified); and the divisor of `step / totalSteps` is floored at 1, so it is
positive for every `numSteps`, including values below 1 — the schedule never
divides by zero there. -/
theorem schedule_boundary_and_divisor :
    (∀ (e : ℚ → ℚ) (k : ℚ) (N T : ℕ), 1 ≤ T →
        exp_schedule_torch e k (T - 1) T N = (N : ℚ))
      ∧ ∀ T : ℕ, 0 < schedDivisor T := by
  constructor
  · intro e k N T hT
    simp only [exp_schedule_torch]
    rw [if_pos (by omega : ((T - 1 : ℕ) : ℤ) = (T : ℤ) - 1)]
  · intro T
    unfold schedDivisor
    omega

/-- C7 witness: at `numSteps = 1` the schedule returns `N = 10` exactly at its
final step, and the divisor is positive even for `numSteps = 0`. -/
theorem schedule_boundary_and_divisor_witness :
    exp_schedule_torch (fun x => x) 5 (1 - 1) 1 10 = (10 : ℚ) ∧ 0 < schedDivisor 0 :=
  ⟨schedule_boundary_and_divisor.1 (fun x => x) 5 10 1 (by decide),
    schedule_boundary_and_divisor.2 0⟩

/-- C8: two `forward_inference` runs with identical inputs (same model, same
context grid, horizon, step budget, conditioning, schedule steepness,
index-to-latents function) and temperature 0 produce identical final states
(hence identical output grids), whatever the samplers are: with temperature 0
every choice is by argmax/topk and no stochastic sampling occurs. -/
theorem decode_temperature_zero_deterministic {α γ : Type} (M : DynamicsModel α γ)
    (cfg : DecodeCfg α γ) (s1 s2 : ℕ → ℕ → ℕ → ℕ → (ℕ → ℚ) → ℕ)
    (ctx : ℕ → ℕ → ℕ → α) :
    decodeFullState M { cfg with temperature := 0 } s1 ctx
      = decodeFullState M { cfg with temperature := 0 } s2 ctx := by
  simp only [decodeFullState]
  rw [decodeIter_temp_zero M cfg s1 s2]

/-- C6 witness: on the concrete 1-batch, 1-context-step, 1-horizon-step decode
call, the context cell `(0, 0, 0)` of the output grid still holds the input
context value 7. -/
theorem decode_preserves_context_witness :
    forward_inference exModel exCfg exSampler exCtx 0 0 0 = 7 :=
  decode_preserves_context exModel exCfg exSampler exCtx 0 0 0 (by decide)

/-- C3: after the training-time masking policy runs in `forward` (training
mode), for every (batch, position) pair the anchor timestep — drawn by
`randint(0, T)`, hence `< T` — has its mask bit force-cleared, so there exists
a timestep whose mask bit is false and no spatial position has all its
timesteps replaced by the Mask Token. -/
theorem trainMask_anchor_invariant (u : ℕ → ℕ → ℕ → ℚ) (r : ℚ)
    (anchor : ℕ → ℕ → ℕ) (T b p : ℕ) (hanch : anchor b p < T) :
    ∃ t, t < T ∧ trainMask u r anchor b t p = false :=
  ⟨anchor b p, hanch, by unfold trainMask; rw [if_pos rfl]⟩

/-- C3 witness: with `T = 2` and the anchor draw at timestep 1, position
`(0, 0)` has an unmasked timestep. -/
theorem trainMask_anchor_invariant_witness :
    ∃ t, t < 2 ∧ trainMask (fun _ _ _ => 0) 0 (fun _ _ => 1) 0 t 0 = false :=
  trainMask_anchor_invariant (fun _ _ _ => 0) 0 (fun _ _ => 1) 2 0 0 (by decide)

/-- C5: the training loss returned by `forward` equals the sum over all
(b, t, p) rows of per-row categorical cross-entropy multiplied by the mask
indicator, divided by `max(count of true mask entries, 1)`; consequently when
the Mask State is entirely false the denominator is 1 (never 0) and the loss
is exactly 0 — a finite degenerate value, not NaN or infinity. -/
theorem forward_training_loss_masked_ce {α γ : Type} (M : DynamicsModel α γ)
    (B T P : ℕ) (lat : ℕ → ℕ → ℕ → α) (u : ℕ → ℕ → ℕ → ℚ) (r : ℚ)
    (anchor : ℕ → ℕ → ℕ) (cond : Option γ) (tg : ℕ → ℕ → ℕ → ℕ)
    (ce : (ℕ → ℚ) → ℕ → ℚ) :
    forward M B T P lat true true u r anchor cond (some tg) ce
        = Except.ok (M.score (maskLatents M (trainMask u r anchor) lat) cond,
            some (trainMask u r anchor),
            some (maskedCELoss B T P ce
              (M.score (maskLatents M (trainMask u r anchor) lat) cond) tg
              (trainMask u r anchor)))
      ∧ ((∀ b, b < B → ∀ t, t < T → ∀ p, p < P → trainMask u r anchor b t p = false) →
          lossDenom B T P (trainMask u r anchor) = 1
            ∧ maskedCELoss B T P ce
                (M.score (maskLatents M (trainMask u r anchor) lat) cond) tg
                (trainMask u r anchor) = 0) := by
  constructor
  · rfl
  · intro hall
    have hcount : maskCountQ B T P (trainMask u r anchor) = 0 := by
      unfold maskCountQ
      refine Finset.sum_eq_zero (fun b hb => ?_)
      refine Finset.sum_eq_zero (fun t ht => ?_)
      refine Finset.sum_eq_zero (fun p hp => ?_)
      rw [hall b (Finset.mem_range.mp hb) t (Finset.mem_range.mp ht)
        p (Finset.mem_range.mp hp)]
      simp
    have hdenom : lossDenom B T P (trainMask u r anchor) = 1 := by
      unfold lossDenom
      rw [hcount]
      norm_num
    refine ⟨hdenom, ?_⟩
    unfold maskedCELoss
    have hnum : (∑ b ∈ Finset.range B, ∑ t ∈ Finset.range T, ∑ p ∈ Finset.range P,
        ce (fun k => M.score (maskLatents M (trainMask u r anchor) lat) cond b t p k)
            (tg b t p)
          * (if trainMask u r anchor b t p then (1 : ℚ) else 0)) = 0 := by
      refine Finset.sum_eq_zero (fun b hb => ?_)
      refine Finset.sum_eq_zero (fun t ht => ?_)
      refine Finset.sum_eq_zero (fun p hp => ?_)
      rw [hall b (Finset.mem_range.mp hb) t (Finset.mem_range.mp ht)
        p (Finset.mem_range.mp hp)]
      simp
    rw [hnum]
    simp

/-- C5 witness: with `B = T = P = 1`, raw draws above the mask ratio and the
anchor at timestep 0, the Mask State is all-false; the denominator is 1 and
the loss is 0. -/
theorem forward_training_loss_masked_ce_witness :
    lossDenom 1 1 1 (trainMask (fun _ _ _ => 1) 0 (fun _ _ => 0)) = 1
      ∧ maskedCELoss 1 1 1 (fun _ _ => 5)
          (exModel.score (maskLatents exModel (trainMask (fun _ _ _ => 1) 0 (fun _ _ => 0))
            (fun _ _ _ => 3)) none) (fun _ _ _ => 0)
          (trainMask (fun _ _ _ => 1) 0 (fun _ _ => 0)) = 0 :=
  (forward_training_loss_masked_ce exModel 1 1 1 (fun _ _ _ => 3) (fun _ _ _ => 1) 0
    (fun _ _ => 0) none (fun _ _ _ => 0) (fun _ _ => 5)).2 (by decide)

/-- C9: calling `forward` with training mode active (the `training` argument
together with the module's `self.training` flag, the condition guarding the
training path in the source) and absent targets (`targets = None`) produces
the fatal assertion error rather than proceeding; the model never silently
skips loss computation when training is requested. -/
theorem forward_missing_targets_fatal {α γ : Type} (M : DynamicsModel α γ)
    (B T P : ℕ) (lat : ℕ → ℕ → ℕ → α) (u : ℕ → ℕ → ℕ → ℚ) (r : ℚ)
    (anchor : ℕ → ℕ → ℕ) (cond : Option γ) (ce : (ℕ → ℚ) → ℕ → ℚ) :
    forward M B T P lat true true u r anchor cond none ce
      = Except.error "target indices are needed for training" := rfl

/-- C10: when `forward` is called with training disabled (the non-training
mode used by the decoding engine), it applies no mask-token substitution to
the input latents — the returned logits are the scoring pipeline applied to
the unmodified latents — and it returns `none` for both the Mask State and the
loss, so the returned triple is `(logits, none, none)`. -/
theorem forward_eval_mode_no_masking {α γ : Type} (M : DynamicsModel α γ)
    (B T P : ℕ) (lat : ℕ → ℕ → ℕ → α) (selfTraining : Bool)
    (u : ℕ → ℕ → ℕ → ℚ) (r : ℚ) (anchor : ℕ → ℕ → ℕ) (cond : Option γ)
    (targets : Option (ℕ → ℕ → ℕ → ℕ)) (ce : (ℕ → ℚ) → ℕ → ℚ) :
    forward M B T P lat false selfTraining u r anchor cond targets ce
      = Except.ok (M.score lat cond, none, none) := rfl

end NanoGenie
